import Mathlib

/-!
Shallow embedding of the MangaPDF streaming PDF writer
(crate lib_stream_pdf: lib.rs, objects.rs, pdf_image.rs, utils.rs)
together with proofs about the specified behaviour.

Modelling conventions:
* Rust machine integers (u16, u32, u64) become Nat; wrapping arithmetic is
  written out explicitly where the source relies on it.
* Fallible operations become Except PDFError.
* Byte output is modelled as String for the textual file skeleton
  (header, xref table, trailer); indirect object bodies are recorded as
  structured Object values in the order they are written, since serialized
  bodies may contain arbitrary binary payloads (and f64 formatting) that no
  verified claim depends on.  Byte offsets in the ledger are abstracted to a
  strictly increasing write counter; every claim about offsets is proved for
  arbitrary offset values.
-/

namespace StreamPdf

/-! ### Decimal formatting (Rust display of unsigned integers) -/

/-- Worker for natDigits, structurally recursive on a fuel bound so that
it evaluates inside the kernel. -/
def natDigitsAux : Nat → Nat → List Char
  | 0, _ => []
  | fuel + 1, n =>
    if n < 10 then [Nat.digitChar n]
    else natDigitsAux fuel (n / 10) ++ [Nat.digitChar (n % 10)]

/-- Decimal digit characters of a natural number, most significant digit
first.  This models the unpadded Rust display formatting of an unsigned
integer. -/
def natDigits (n : Nat) : List Char := natDigitsAux (n + 1) n

theorem natDigitsAux_congr :
    ∀ (f1 f2 n : Nat), n < f1 → n < f2 →
      natDigitsAux f1 n = natDigitsAux f2 n := by
  intro f1
  induction f1 with
  | zero => omega
  | succ f1 ih =>
    intro f2 n h1 h2
    cases f2 with
    | zero => omega
    | succ f2 =>
      rw [natDigitsAux, natDigitsAux]
      by_cases h : n < 10
      · simp [h]
      · have hdiv : n / 10 < n := Nat.div_lt_self (by omega) (by omega)
        rw [if_neg h, if_neg h, ih f2 (n / 10) (by omega) (by omega)]

/-- Decimal string of a natural number. -/
def natStr (n : Nat) : String := String.mk (natDigits n)

/-- Zero padding to a minimum width, as Rust formatting with a zero flag and
a width, for example the 10 wide offset field and the 5 wide generation
field of an xref line. -/
def padZero (w n : Nat) : String :=
  String.mk (List.replicate (w - (natDigits n).length) '0' ++ natDigits n)

theorem natDigits_of_lt {n : Nat} (h : n < 10) :
    natDigits n = [Nat.digitChar n] := by
  rw [natDigits, natDigitsAux]; simp [h]

theorem natDigits_of_ge {n : Nat} (h : 10 ≤ n) :
    natDigits n = natDigits (n / 10) ++ [Nat.digitChar (n % 10)] := by
  rw [natDigits, natDigitsAux, if_neg (by omega)]
  have hdiv : n / 10 < n := Nat.div_lt_self (by omega) (by omega)
  rw [natDigitsAux_congr n (n / 10 + 1) (n / 10) (by omega) (by omega)]
  rfl

theorem natDigits_length_pos (n : Nat) : 0 < (natDigits n).length := by
  by_cases h : n < 10
  · rw [natDigits_of_lt h]; simp
  · rw [natDigits_of_ge (by omega)]; simp

/-- The padded decimal representation of n fits in k digits exactly when
n is below 10 ^ k. -/
theorem natDigits_length_le {k : Nat} (hk : 0 < k) (n : Nat) :
    (natDigits n).length ≤ k ↔ n < 10 ^ k := by
  induction k generalizing n with
  | zero => omega
  | succ k ih =>
    by_cases h : n < 10
    · rw [natDigits_of_lt h]
      simp only [List.length_singleton]
      constructor
      · intro _
        calc n < 10 := h
        _ = 10 ^ 1 := by norm_num
        _ ≤ 10 ^ (k + 1) := Nat.pow_le_pow_right (by omega) (by omega)
      · intro _; omega
    · rw [natDigits_of_ge (by omega)]
      rw [List.length_append, List.length_singleton]
      rcases Nat.eq_zero_or_pos k with hk0 | hkpos
      · subst hk0
        have := natDigits_length_pos (n / 10)
        constructor
        · intro hle; omega
        · intro hlt; norm_num at hlt; omega
      · rw [Nat.add_le_add_iff_right, ih hkpos (n / 10)]
        rw [Nat.div_lt_iff_lt_mul (by omega : 0 < 10)]
        rw [pow_succ]

theorem padZero_length (w n : Nat) :
    (padZero w n).length = max w (natDigits n).length := by
  simp only [padZero, String.length_mk, List.length_append,
    List.length_replicate]
  omega

/-! ### Object identifiers (objects.rs, ObjectId and ObjectIdGenerator) -/

/-- ObjectId(u32, u16): object number and generation number. -/
structure ObjectId where
  num : Nat
  gen : Nat
deriving DecidableEq

instance : Inhabited ObjectId := ⟨⟨0, 0⟩⟩

/-- The derived Rust Ord on ObjectId(u32, u16) is lexicographic, as a
boolean comparison usable by sorting. -/
def idLe (a b : ObjectId) : Bool :=
  decide (a.num < b.num) || (decide (a.num = b.num) && decide (a.gen ≤ b.gen))

/-- The gen_string method: the generation number rendered with a 5 wide
zero padded field. -/
def ObjectId.gen_string (id : ObjectId) : String := padZero 5 id.gen

/-! ### WrittenObject and the xref line (lib.rs, WrittenObject) -/

/-- Errors of the crate (lib.rs, PDFError).  Payloads (the offending path,
the colour description, the wrapped io and image errors) are not needed by
any claim and are omitted. -/
inductive PDFError where
  | BadImageColourType
  | ByteIndexTooLarge
  | FileAlreadyExists
  | IOError
  | ImageError
deriving DecidableEq

/-- WrittenObject: an object id, the byte offset its body starts at, and
whether the entry is a free list entry. -/
structure WrittenObject where
  id : ObjectId
  byte_offset : Nat
  is_free : Bool
deriving DecidableEq

def WrittenObject.object_num (o : WrittenObject) : Nat := o.id.num

/-- The string content of one xref table line as it is written on the
success path of write_xref_line. -/
def xrefLineStr (o : WrittenObject) : String :=
  padZero 10 o.byte_offset ++ " " ++ o.id.gen_string ++ " " ++
    (if o.is_free then "f" else "n") ++ "\r\n"

/-- WrittenObject::write_xref_line: format the offset 10 wide, fail if the
result overflowed the field, otherwise emit the 20 byte line.  The error is
returned before anything is written. -/
def write_xref_line (o : WrittenObject) : Except PDFError String :=
  let byte_index_string := padZero 10 o.byte_offset
  if byte_index_string.length > 10 then
    .error .ByteIndexTooLarge
  else
    .ok (byte_index_string ++ " " ++ o.id.gen_string ++ " " ++
      (if o.is_free then "f" else "n") ++ "\r\n")

theorem write_xref_line_ok {o : WrittenObject} (h : o.byte_offset < 10 ^ 10) :
    write_xref_line o = .ok (xrefLineStr o) := by
  have hlen : (padZero 10 o.byte_offset).length = 10 := by
    rw [padZero_length]
    have := (natDigits_length_le (by omega : (0:Nat) < 10) o.byte_offset).mpr h
    omega
  simp [write_xref_line, xrefLineStr, hlen]

theorem xrefLineStr_length {o : WrittenObject}
    (hoff : o.byte_offset < 10 ^ 10) (hgen : o.id.gen < 65536) :
    (xrefLineStr o).length = 20 := by
  have h10 : (padZero 10 o.byte_offset).length = 10 := by
    rw [padZero_length]
    have := (natDigits_length_le (by omega : (0:Nat) < 10) o.byte_offset).mpr hoff
    omega
  have h5 : (padZero 5 o.id.gen).length = 5 := by
    rw [padZero_length]
    have := (natDigits_length_le (by omega : (0:Nat) < 5) o.id.gen).mpr
      (by omega : o.id.gen < 10 ^ 5)
    omega
  have hfn : ((if o.is_free then "f" else "n") : String).length = 1 := by
    by_cases h : o.is_free <;> simp [h] <;> rfl
  simp only [xrefLineStr, String.length_append, ObjectId.gen_string,
    h10, h5, hfn]
  rfl

/-! ### Xref table grouping (lib.rs, DocumentWriter::write_xref_table) -/

/-- Wrapping u32 decrement: the subtraction object_num() - 1 performed on a
u32 in the grouping condition of write_xref_table. -/
def u32pred (n : Nat) : Nat := (n + (4294967296 - 1)) % 4294967296

/-- One iteration of the grouping loop of write_xref_table: when the last
group's last object number immediately precedes the incoming object's
number, the object is pushed onto that group, otherwise it starts a new
group. -/
def groupStep (lists : List (List WrittenObject)) (w : WrittenObject) :
    List (List WrittenObject) :=
  match lists.getLast? with
  | some lastList =>
    match lastList.getLast? with
    | some lastObj =>
      if lastObj.object_num = u32pred w.object_num then
        lists.dropLast ++ [lastList ++ [w]]
      else lists ++ [[w]]
    | none => lists ++ [[w]]
  | none => [[w]]

/-- The adjacent_object_lists value built by write_xref_table. -/
def adjacentLists (objs : List WrittenObject) : List (List WrittenObject) :=
  objs.foldl groupStep []

/-- Right recursive description of the same grouping, convenient for
induction. -/
def runsRec : List WrittenObject → List (List WrittenObject)
  | [] => []
  | w :: ws =>
    match runsRec ws with
    | [] => [[w]]
    | [] :: rest => [w] :: rest
    | (v :: vs) :: rest =>
      if w.object_num = u32pred v.object_num then (w :: v :: vs) :: rest
      else [w] :: (v :: vs) :: rest

theorem runsRec_cons_shape (a : WrittenObject) (l : List WrittenObject) :
    ∃ t rs, runsRec (a :: l) = (a :: t) :: rs := by
  rw [runsRec]
  rcases h : runsRec l with _ | ⟨_ | ⟨v, vs⟩, rest⟩
  · exact ⟨[], [], rfl⟩
  · exact ⟨[], rest, rfl⟩
  · by_cases hc : a.object_num = u32pred v.object_num
    · exact ⟨v :: vs, rest, by simp [hc]⟩
    · exact ⟨[], (v :: vs) :: rest, by simp [hc]⟩

def prependToFirst (g : List WrittenObject) :
    List (List WrittenObject) → List (List WrittenObject)
  | [] => [g]
  | r :: rs => (g ++ r) :: rs

theorem foldl_groupStep_key :
    ∀ (l : List WrittenObject) (gs : List (List WrittenObject))
      (g : List WrittenObject) (a : WrittenObject),
      List.foldl groupStep (gs ++ [g ++ [a]]) l =
        gs ++ prependToFirst g (runsRec (a :: l)) := by
  intro l
  induction l with
  | nil =>
    intro gs g a
    simp [runsRec, prependToFirst]
  | cons b l' ih =>
    intro gs g a
    rw [List.foldl_cons]
    have hstep : groupStep (gs ++ [g ++ [a]]) b =
        if a.object_num = u32pred b.object_num then
          gs ++ [(g ++ [a]) ++ [b]]
        else (gs ++ [g ++ [a]]) ++ [[b]] := by
      simp only [groupStep, List.getLast?_concat]
      by_cases hc : a.object_num = u32pred b.object_num
      · simp [hc]
      · simp [hc]
    obtain ⟨t, rs, hshape⟩ := runsRec_cons_shape b l'
    by_cases hc : a.object_num = u32pred b.object_num
    · rw [hstep, if_pos hc, ih gs (g ++ [a]) b]
      have hrw : runsRec (a :: b :: l') = (a :: b :: t) :: rs := by
        rw [runsRec, hshape]
        simp [hc]
      rw [hrw, hshape]
      simp [prependToFirst]
    · rw [hstep, if_neg hc]
      have h2 : ([[b]] : List (List WrittenObject)) = [([] : List WrittenObject) ++ [b]] := by
        simp
      rw [h2, ih (gs ++ [g ++ [a]]) [] b]
      have hrw : runsRec (a :: b :: l') = [a] :: (b :: t) :: rs := by
        rw [runsRec, hshape]
        simp [hc]
      rw [hrw, hshape]
      simp [prependToFirst]

/-- The grouping loop computes exactly the recursive grouping. -/
theorem adjacentLists_eq_runsRec (l : List WrittenObject) :
    adjacentLists l = runsRec l := by
  cases l with
  | nil => rfl
  | cons a l' =>
    unfold adjacentLists
    rw [List.foldl_cons]
    have h0 : groupStep [] a = [] ++ [([] : List WrittenObject) ++ [a]] := by
      simp [groupStep]
    rw [h0, foldl_groupStep_key]
    obtain ⟨t, rs, hshape⟩ := runsRec_cons_shape a l'
    rw [hshape]
    simp [prependToFirst]

theorem runsRec_flatten (l : List WrittenObject) :
    (runsRec l).flatten = l := by
  induction l with
  | nil => rfl
  | cons a l' ih =>
    rw [runsRec]
    rcases h : runsRec l' with _ | ⟨g, rest⟩
    · rw [h] at ih
      simp only [List.flatten_nil] at ih
      simp [← ih]
    · rw [h] at ih
      cases g with
      | nil => simpa using ih
      | cons v vs =>
        by_cases hc : a.object_num = u32pred v.object_num
        · simpa [hc] using ih
        · simpa [hc] using ih

theorem runsRec_ne_nil (l : List WrittenObject) :
    ∀ g ∈ runsRec l, g ≠ [] := by
  induction l with
  | nil => intro g hg; simp [runsRec] at hg
  | cons a l' ih =>
    intro g hg
    rw [runsRec] at hg
    rcases h : runsRec l' with _ | ⟨g', rest⟩ <;> rw [h] at hg
    · simp at hg; simp [hg]
    · cases g' with
      | nil =>
        simp at hg
        rcases hg with hg | hg
        · simp [hg]
        · exact ih g (by rw [h]; simp [hg])
      | cons v vs =>
        by_cases hc : a.object_num = u32pred v.object_num <;>
          simp [hc] at hg
        · rcases hg with hg | hg
          · simp [hg]
          · exact ih g (by rw [h]; simp [hg])
        · rcases hg with hg | hg | hg
          · simp [hg]
          · exact ih g (by rw [h]; simp [hg])
          · exact ih g (by rw [h]; simp [hg])

/-- Object number of the first entry of a group (the subsection start
number adjacent_objects[0].object_num()). -/
def headNum (g : List WrittenObject) : Nat :=
  match g with
  | [] => 0
  | w :: _ => w.object_num

/-- Object number of the last entry of a group. -/
def lastNum (g : List WrittenObject) : Nat :=
  match g.getLast? with
  | some w => w.object_num
  | none => 0

/-- A group is a run when its object numbers are consecutive starting from
its first number. -/
def isRun (g : List WrittenObject) : Prop :=
  g.map WrittenObject.object_num = List.range' (headNum g) g.length

theorem u32pred_eq_iff {a b : Nat} (ha : a < 4294967296)
    (hb : b < 4294967296) (hle : a ≤ b) :
    a = u32pred b ↔ a + 1 = b := by
  unfold u32pred
  constructor
  · intro h
    rcases Nat.eq_zero_or_pos b with h0 | hpos
    · subst h0
      omega
    · have : (b + (4294967296 - 1)) % 4294967296 = b - 1 := by
        omega
      omega
  · intro h
    have : (b + (4294967296 - 1)) % 4294967296 = b - 1 := by
      omega
    omega

theorem runsRec_isRun (l : List WrittenObject)
    (hb : ∀ o ∈ l, o.object_num < 4294967296)
    (hs : l.Chain' (fun x y => x.object_num ≤ y.object_num)) :
    ∀ g ∈ runsRec l, isRun g := by
  induction l with
  | nil => intro g hg; simp [runsRec] at hg
  | cons a l' ih =>
    cases l' with
    | nil =>
      intro g hg
      simp [runsRec] at hg
      subst hg
      simp [isRun, headNum]
    | cons b l'' =>
      intro g hg
      obtain ⟨t, rs, hshape⟩ := runsRec_cons_shape b l''
      have hb' : ∀ o ∈ b :: l'', o.object_num < 4294967296 := by
        intro o ho; exact hb o (List.mem_cons_of_mem _ ho)
      have hs' : (b :: l'').Chain' (fun x y => x.object_num ≤ y.object_num) :=
        hs.tail
      have ihall := ih hb' hs'
      have hab : a.object_num ≤ b.object_num :=
        (List.chain'_cons.mp hs).1
      rw [runsRec, hshape] at hg
      by_cases hc : a.object_num = u32pred b.object_num
      · simp only [if_pos hc] at hg
        rw [List.mem_cons] at hg
        rcases hg with hg | hg
        · subst hg
          have hrun : isRun (b :: t) := ihall _ (by rw [hshape]; simp)
          have hsucc : a.object_num + 1 = b.object_num :=
            (u32pred_eq_iff (hb a (by simp)) (hb' b (by simp)) hab).mp hc
          unfold isRun at hrun ⊢
          simp only [List.map_cons, List.length_cons, headNum] at hrun ⊢
          rw [List.range'_succ, ← hsucc]
          simp only [List.cons.injEq, true_and]
          simpa [headNum, hsucc] using hrun
        · exact ihall g (by rw [hshape]; exact List.mem_cons_of_mem _ hg)
      · simp only [if_neg hc] at hg
        rw [List.mem_cons] at hg
        rcases hg with hg | hg
        · subst hg
          simp [isRun, headNum]
        · exact ihall g (by rw [hshape]; exact hg)

theorem runsRec_chain (l : List WrittenObject)
    (hb : ∀ o ∈ l, o.object_num < 4294967296)
    (hs : l.Chain' (fun x y => x.object_num ≤ y.object_num)) :
    (runsRec l).Chain' (fun g1 g2 => headNum g2 ≠ lastNum g1 + 1) := by
  induction l with
  | nil => simp [runsRec]
  | cons a l' ih =>
    cases l' with
    | nil => simp [runsRec]
    | cons b l'' =>
      obtain ⟨t, rs, hshape⟩ := runsRec_cons_shape b l''
      have hb' : ∀ o ∈ b :: l'', o.object_num < 4294967296 := by
        intro o ho; exact hb o (List.mem_cons_of_mem _ ho)
      have hs' : (b :: l'').Chain' (fun x y => x.object_num ≤ y.object_num) :=
        hs.tail
      have ihchain := ih hb' hs'
      rw [hshape] at ihchain
      have hab : a.object_num ≤ b.object_num :=
        (List.chain'_cons.mp hs).1
      rw [runsRec, hshape]
      by_cases hc : a.object_num = u32pred b.object_num
      · simp only [if_pos hc]
        have hlast : lastNum (a :: b :: t) = lastNum (b :: t) := by
          simp [lastNum, List.getLast?_cons_cons]
        cases rs with
        | nil => simp
        | cons r rs' =>
          rw [List.chain'_cons] at ihchain ⊢
          exact ⟨by rw [hlast]; exact ihchain.1, ihchain.2⟩
      · simp only [if_neg hc]
        rw [List.chain'_cons]
        constructor
        · intro hcontra
          apply hc
          have hbnum : headNum (b :: t) = b.object_num := rfl
          have hlnum : lastNum [a] = a.object_num := rfl
          rw [hbnum, hlnum] at hcontra
          exact (u32pred_eq_iff (hb a (by simp)) (hb' b (by simp)) hab).mpr
            hcontra.symm
        · exact ihchain

/-! ### Xref table emission -/

/-- The comparison closure passed to the sort in write_xref_table: compare
the two object ids with their derived order. -/
def woLe (a b : WrittenObject) : Bool := idLe a.id b.id

theorem woLe_trans (a b c : WrittenObject) (h1 : woLe a b) (h2 : woLe b c) :
    woLe a c := by
  simp only [woLe, idLe, Bool.or_eq_true, Bool.and_eq_true,
    decide_eq_true_eq] at h1 h2 ⊢
  omega

theorem woLe_total (a b : WrittenObject) : woLe a b || woLe b a := by
  simp only [woLe, idLe, Bool.or_eq_true, Bool.and_eq_true,
    decide_eq_true_eq]
  omega

/-- The comparison as a relation, for the stable sort. -/
def woRel (a b : WrittenObject) : Prop := woLe a b = true

instance : DecidableRel woRel :=
  fun a b => inferInstanceAs (Decidable (woLe a b = true))

instance : IsTotal WrittenObject woRel :=
  ⟨fun a b => by
    have h := woLe_total a b
    rcases Bool.or_eq_true _ _ ▸ h with h1 | h1
    · exact Or.inl h1
    · exact Or.inr h1⟩

instance : IsTrans WrittenObject woRel :=
  ⟨fun a b c h1 h2 => woLe_trans a b c h1 h2⟩

/-- The ledger sorted stably by object id, as done in place at the start
of write_xref_table. -/
def sortObjs (objs : List WrittenObject) : List WrittenObject :=
  List.insertionSort woRel objs

/-- Concatenation of a list of strings in order. -/
def strConcat (l : List String) : String := l.foldr (· ++ ·) ""

theorem strConcat_cons (s : String) (l : List String) :
    strConcat (s :: l) = s ++ strConcat l := rfl

/-- Sequential emission of the xref lines of one group; the first failing
line aborts. -/
def xrefLinesM : List WrittenObject → Except PDFError String
  | [] => .ok ""
  | o :: os =>
    match write_xref_line o with
    | .error e => .error e
    | .ok line =>
      match xrefLinesM os with
      | .error e => .error e
      | .ok rest => .ok (line ++ rest)

/-- Emission of all subsections: for each group the header line with the
group's first object number and its length, then the group's lines. -/
def xrefSubsectionsM : List (List WrittenObject) → Except PDFError String
  | [] => .ok ""
  | g :: gs =>
    match xrefLinesM g with
    | .error e => .error e
    | .ok lines =>
      match xrefSubsectionsM gs with
      | .error e => .error e
      | .ok rest =>
        .ok (natStr (headNum g) ++ " " ++ natStr g.length ++ "\n" ++
          lines ++ rest)

/-- DocumentWriter::write_xref_table: write the xref keyword, sort the
ledger, group it into runs of adjacent object numbers, and emit one
subsection per run. -/
def write_xref_table (objs : List WrittenObject) : Except PDFError String :=
  match xrefSubsectionsM (adjacentLists (sortObjs objs)) with
  | .error e => .error e
  | .ok body => .ok ("\nxref\n" ++ body)

/-- The text of one emitted subsection. -/
def xrefSubsectionStr (g : List WrittenObject) : String :=
  natStr (headNum g) ++ " " ++ natStr g.length ++ "\n" ++
    strConcat (g.map xrefLineStr)

theorem xrefLinesM_ok {g : List WrittenObject}
    (h : ∀ o ∈ g, o.byte_offset < 10 ^ 10) :
    xrefLinesM g = .ok (strConcat (g.map xrefLineStr)) := by
  induction g with
  | nil => rfl
  | cons o os ih =>
    rw [xrefLinesM, write_xref_line_ok (h o (by simp)),
      ih (fun o' ho' => h o' (List.mem_cons_of_mem _ ho'))]
    simp [strConcat_cons]

theorem xrefSubsectionsM_ok {gs : List (List WrittenObject)}
    (h : ∀ g ∈ gs, ∀ o ∈ g, o.byte_offset < 10 ^ 10) :
    xrefSubsectionsM gs = .ok (strConcat (gs.map xrefSubsectionStr)) := by
  induction gs with
  | nil => rfl
  | cons g gs' ih =>
    rw [xrefSubsectionsM, xrefLinesM_ok (h g (by simp)),
      ih (fun g' hg' => h g' (List.mem_cons_of_mem _ hg'))]
    simp [strConcat_cons, xrefSubsectionStr]

/-! ### Claim C1: shape of the cross-reference table -/

/-- Everything claim C1 states about the cross-reference table of a
finished document: the ledger is sorted ascending, partitioned into
nonempty maximal runs of consecutive object numbers, emitted as one
subsection per run with a first-number and count header, with one 20 byte
line per object of the documented layout. -/
def XrefTableSpec (objs : List WrittenObject) : Prop :=
  List.Perm (sortObjs objs) objs
  ∧ (sortObjs objs).Pairwise (fun x y => x.object_num ≤ y.object_num)
  ∧ (adjacentLists (sortObjs objs)).flatten = sortObjs objs
  ∧ (∀ g ∈ adjacentLists (sortObjs objs), g ≠ [] ∧ isRun g)
  ∧ (adjacentLists (sortObjs objs)).Chain'
      (fun g1 g2 => headNum g2 ≠ lastNum g1 + 1)
  ∧ write_xref_table objs =
      .ok ("\nxref\n" ++
        strConcat ((adjacentLists (sortObjs objs)).map xrefSubsectionStr))
  ∧ ∀ o ∈ objs,
      write_xref_line o = .ok (xrefLineStr o)
      ∧ (xrefLineStr o).length = 20
      ∧ xrefLineStr o =
          padZero 10 o.byte_offset ++ " " ++ padZero 5 o.id.gen ++ " " ++
            (if o.is_free then "f" else "n") ++ "\r\n"

/-- Claim C1: for every finished document (any ledger of written objects
with u32 object numbers, u16 generation numbers and in-range offsets), the
cross-reference table is built by sorting the entries, grouping them into
maximal runs of consecutive object numbers, and emitting each run as a
subsection with a "first count" header followed by one 20 byte line per
object of the form offset(10) space gen(5) space f or n CR LF. -/
theorem xref_table_matches_spec (objs : List WrittenObject)
    (hnum : ∀ o ∈ objs, o.object_num < 4294967296)
    (hgen : ∀ o ∈ objs, o.id.gen < 65536)
    (hoff : ∀ o ∈ objs, o.byte_offset < 10 ^ 10) :
    XrefTableSpec objs := by
  have hperm : List.Perm (sortObjs objs) objs :=
    List.perm_insertionSort woRel objs
  have hpw : (sortObjs objs).Pairwise woRel :=
    List.sorted_insertionSort woRel objs
  have hpw' : (sortObjs objs).Pairwise
      (fun x y => x.object_num ≤ y.object_num) := by
    refine hpw.imp ?_
    intro x y hxy
    simp only [woRel, woLe, idLe, Bool.or_eq_true, Bool.and_eq_true,
      decide_eq_true_eq] at hxy
    simp only [WrittenObject.object_num]
    omega
  have hmem : ∀ o ∈ sortObjs objs, o ∈ objs := by
    intro o ho
    exact hperm.mem_iff.mp ho
  have hbs : ∀ o ∈ sortObjs objs, o.object_num < 4294967296 :=
    fun o ho => hnum o (hmem o ho)
  have hchain : (sortObjs objs).Chain'
      (fun x y => x.object_num ≤ y.object_num) := hpw'.chain'
  have heq := adjacentLists_eq_runsRec (sortObjs objs)
  have hflat : (adjacentLists (sortObjs objs)).flatten = sortObjs objs := by
    rw [heq]; exact runsRec_flatten _
  have hgrp : ∀ g ∈ adjacentLists (sortObjs objs), g ≠ [] ∧ isRun g := by
    intro g hg
    rw [heq] at hg
    exact ⟨runsRec_ne_nil _ g hg, runsRec_isRun _ hbs hchain g hg⟩
  have hmax : (adjacentLists (sortObjs objs)).Chain'
      (fun g1 g2 => headNum g2 ≠ lastNum g1 + 1) := by
    rw [heq]; exact runsRec_chain _ hbs hchain
  have hoffg : ∀ g ∈ adjacentLists (sortObjs objs),
      ∀ o ∈ g, o.byte_offset < 10 ^ 10 := by
    intro g hg o ho
    apply hoff
    apply hmem
    rw [← hflat]
    exact List.mem_flatten.mpr ⟨g, hg, ho⟩
  refine ⟨hperm, hpw', hflat, hgrp, hmax, ?_, ?_⟩
  · rw [write_xref_table, xrefSubsectionsM_ok hoffg]
  · intro o ho
    exact ⟨write_xref_line_ok (hoff o ho),
      xrefLineStr_length (hoff o ho) (hgen o ho), rfl⟩

/-- Witness ledger: the reserved free head, objects 1 and 2, and object 4
after a gap, so both a multi object run and a second subsection occur. -/
def c1WitnessObjs : List WrittenObject :=
  [⟨⟨4, 0⟩, 120, false⟩, ⟨⟨0, 65535⟩, 0, true⟩, ⟨⟨1, 0⟩, 9, false⟩,
    ⟨⟨2, 0⟩, 45, false⟩]

/-- Concrete instantiation of claim C1 on a four object ledger. -/
theorem xref_table_matches_spec_witness : XrefTableSpec c1WitnessObjs :=
  xref_table_matches_spec c1WitnessObjs (by decide) (by decide) (by decide)

/-! ### PDF object model (objects.rs) -/

/-- PDF object values (objects.rs, Object).  The f64 payload of Real is
kept as an uninterpreted Float; dictionaries are sorted association lists
mirroring the BTreeMap key order; stream payloads are byte lists. -/
inductive Object where
  | Null
  | Bool (b : Bool)
  | Int (i : Int)
  | Real (r : Float)
  | Name (n : String)
  | Str (s : String)
  | Array (a : List Object)
  | Dictionary (d : List (String × Object))
  | Stream (dict : List (String × Object)) (bytes : List Nat)
  | Ref (id : ObjectId)

/-- Lexicographic comparison of key character lists by scalar value. -/
def keyLtList : List Char → List Char → Bool
  | [], [] => false
  | [], _ :: _ => true
  | _ :: _, [] => false
  | c1 :: r1, c2 :: r2 =>
    if c1.toNat < c2.toNat then true
    else if c2.toNat < c1.toNat then false
    else keyLtList r1 r2

/-- The strict order of the BTreeMap keys: the derived Rust Ord on String
compares UTF-8 bytes lexicographically, which agrees with comparing scalar
values lexicographically. -/
def keyLt (a b : String) : Bool := keyLtList a.data b.data

/-- BTreeMap insertion on the sorted association list representation: keys
stay strictly sorted by the string order and an existing binding for the
key is replaced. -/
def dictInsert : List (String × Object) → String → Object →
    List (String × Object)
  | [], k, v => [(k, v)]
  | (k', v') :: rest, k, v =>
    if keyLt k k' then (k, v) :: (k', v') :: rest
    else if k = k' then (k, v) :: rest
    else (k', v') :: dictInsert rest k v

/-- Lookup of a key in a dictionary. -/
def dictFind : List (String × Object) → String → Option Object
  | [], _ => none
  | (k', v') :: rest, k => if k = k' then some v' else dictFind rest k

theorem dictFind_insert_self (d : List (String × Object)) (k : String)
    (v : Object) : dictFind (dictInsert d k v) k = some v := by
  induction d with
  | nil => simp [dictInsert, dictFind]
  | cons p rest ih =>
    obtain ⟨k', v'⟩ := p
    rw [dictInsert]
    by_cases h1 : keyLt k k'
    · simp [h1, dictFind]
    · by_cases h2 : k = k'
      · subst h2
        simp [h1, dictFind]
      · simp [h1, h2, dictFind, ih]

theorem dictFind_insert_ne (d : List (String × Object)) {k k' : String}
    (h : k ≠ k') (v : Object) :
    dictFind (dictInsert d k' v) k = dictFind d k := by
  induction d with
  | nil => simp [dictInsert, dictFind, h]
  | cons p rest ih =>
    obtain ⟨k'', v''⟩ := p
    rw [dictInsert]
    by_cases h1 : keyLt k' k''
    · simp only [if_pos h1, dictFind, if_neg h]
    · by_cases h2 : k' = k''
      · subst h2
        simp only [h1, Bool.false_eq_true, if_false, if_pos rfl, dictFind,
          if_neg h]
      · simp only [h1, Bool.false_eq_true, if_false, if_neg h2, dictFind,
          ih]

/-! ### Document writer state (lib.rs) -/

/-- Lightweight page handle (lib.rs, PageRef): the page object id and the
page height used for outline destinations. -/
structure PageRef where
  id : ObjectId
  height : Float

instance : Inhabited PageRef := ⟨⟨default, 0.0⟩⟩

mutual

/-- Caller supplied outline node (lib.rs, OutlineItem).  The child vector
is represented by the mutually defined forest type so that the tree walk
is structurally recursive. -/
inductive OutlineItem where
  | mk (name : String) (page : PageRef) (children : OutlineForest)

/-- An ordered list of outline items. -/
inductive OutlineForest where
  | nil
  | cons (head : OutlineItem) (tail : OutlineForest)

end

instance : Inhabited OutlineItem := ⟨.mk "" default .nil⟩

def OutlineItem.name : OutlineItem → String
  | .mk n _ _ => n

def OutlineItem.page : OutlineItem → PageRef
  | .mk _ p _ => p

def OutlineItem.children : OutlineItem → OutlineForest
  | .mk _ _ c => c

def forestLength : OutlineForest → Nat
  | .nil => 0
  | .cons _ t => forestLength t + 1

/-- The item at a position of a forest (used only in specifications). -/
def forestGet : OutlineForest → Nat → OutlineItem
  | .nil, _ => default
  | .cons h _, 0 => h
  | .cons _ t, n + 1 => forestGet t n

/-- Optional title and author strings (lib.rs, DocumentInfo). -/
structure DocumentInfo where
  title : Option String
  author : Option String

/-- The From Option conversion of objects.rs: None becomes the null
object, Some x becomes the converted x. -/
def objOfOption {α : Type} (f : α → Object) : Option α → Object
  | none => .Null
  | some a => f a

/-- DocumentInfo::into_dictionary: a dictionary holding the optional Title
and Author entries (null when absent). -/
def DocumentInfo.into_dictionary (info : DocumentInfo) :
    List (String × Object) :=
  dictInsert (dictInsert [] "Title" (objOfOption Object.Str info.title))
    "Author" (objOfOption Object.Str info.author)

/-- The state of DocumentWriter.  The output file is abstracted: the
indirect objects written so far are recorded in order as structured values
in objects_out, and byte positions are abstracted to the strictly
increasing counter pos (no verified claim depends on concrete byte
offsets, which would require modelling f64 text formatting). -/
structure DocumentWriter where
  next_id : Nat
  written_objects : List WrittenObject
  pages_root_id : ObjectId
  pages : List PageRef
  objects_out : List (ObjectId × Object)
  pos : Nat

/-- ObjectIdGenerator::next: hand out the counter with the requested
generation number and advance the counter by one. -/
def allocId (w : DocumentWriter) (gen : Nat) : ObjectId × DocumentWriter :=
  (⟨w.next_id, gen⟩, { w with next_id := w.next_id + 1 })

/-- The reserved free list head entry pushed by stream_to_file: object
number 0, generation u16 max, offset 0, marked free. -/
def freeHeadObj : WrittenObject := ⟨⟨0, 65535⟩, 0, true⟩

/-- The writer state right after stream_to_file succeeded: the header has
been written, the free head ledger entry recorded, and ids 0 (gen 65535)
and 1 (the pages root) consumed. -/
def initialWriter : DocumentWriter where
  next_id := 2
  written_objects := [freeHeadObj]
  pages_root_id := ⟨1, 0⟩
  pages := []
  objects_out := []
  pos := 1

/-- DocumentWriter::stream_to_file, modelled over the prior state of the
target file: with overwrite false and an existing file it fails before
touching the file; otherwise the file is created and the header written. -/
def stream_to_file (existing : Option String) (overwrite : Bool) :
    Except PDFError DocumentWriter :=
  if !overwrite && existing.isSome then .error .FileAlreadyExists
  else .ok initialWriter

/-- The content of the target file after the stream_to_file call: left
untouched when the call failed, otherwise created or truncated and then
holding exactly the written header. -/
def fileAfterOpen (existing : Option String) (overwrite : Bool) :
    Option String :=
  match stream_to_file existing overwrite with
  | .error _ => existing
  | .ok _ => some "%PDF-1.7"

/-- DocumentWriter::write_object_with_ref: write the object body at the
current position and push one in-use ledger entry carrying that
position. -/
def write_object_with_ref (w : DocumentWriter) (id : ObjectId)
    (obj : Object) : DocumentWriter :=
  { w with
    pos := w.pos + 1
    objects_out := w.objects_out ++ [(id, obj)]
    written_objects := w.written_objects ++ [⟨id, w.pos, false⟩] }

/-- DocumentWriter::write_object_ref: allocate a fresh id at generation 0
and write the object under it. -/
def write_object_ref (w : DocumentWriter) (obj : Object) :
    ObjectId × DocumentWriter :=
  let (new_id, w') := allocId w 0
  (new_id, write_object_with_ref w' new_id obj)

/-- The Dest array of an outline item: target page, XYZ, x 0, y the page
height, null zoom. -/
def destArray (page : PageRef) : Object :=
  .Array [.Ref page.id, .Name "XYZ", .Int 0, .Real page.height, .Null]

/-- The sibling ids allocated up front by write_outline_tree: consecutive
object numbers from the current counter, all at generation 0. -/
def idsFor (nid len : Nat) : List ObjectId :=
  (List.range len).map (fun j => ObjectId.mk (nid + j) 0)

/-- The dictionary of one outline item: Title, Parent, Prev when not
first, Next when not last, Dest, then First, Last and the negated child
count when there are children.  The source interleaves the child-link
inserts with the recursion into the children, but dictInsert is pure, so
collecting all inserts in one place yields the same dictionary. -/
def itemDict (parent_id : ObjectId) (outline_ids : List ObjectId)
    (max_index i : Nat) (nm : String) (pg : PageRef)
    (child_ids : List ObjectId) : List (String × Object) :=
  let d := dictInsert (dictInsert [] "Title" (.Str nm)) "Parent"
    (.Ref parent_id)
  let d := if i > 0 then
      dictInsert d "Prev" (.Ref (outline_ids.getD (i - 1) default))
    else d
  let d := if i < max_index then
      dictInsert d "Next" (.Ref (outline_ids.getD (i + 1) default))
    else d
  let d := dictInsert d "Dest" (destArray pg)
  if child_ids.length > 0 then
    dictInsert (dictInsert (dictInsert d
      "First" (.Ref (child_ids.getD 0 default)))
      "Last" (.Ref (child_ids.getD (child_ids.length - 1) default)))
      "Count" (.Int (-(child_ids.length : Int)))
  else d

mutual

/-- The loop of write_outline_tree over one sibling list; i is the
enumeration index, outline_ids the ids allocated for the whole list. -/
def outlineWalk (parent_id : ObjectId) (outline_ids : List ObjectId)
    (max_index : Nat) :
    DocumentWriter → Nat → OutlineForest → DocumentWriter
  | w, _, .nil => w
  | w, i, .cons item rest =>
    outlineWalk parent_id outline_ids max_index
      (outlineItemWrite parent_id outline_ids max_index w i item) (i + 1)
      rest

/-- One iteration of the loop: recurse into the children (allocating their
sibling ids first, exactly as the nested write_outline_tree call does),
then write the item dictionary under the item id. -/
def outlineItemWrite (parent_id : ObjectId) (outline_ids : List ObjectId)
    (max_index : Nat) (w : DocumentWriter) (i : Nat) :
    OutlineItem → DocumentWriter
  | .mk nm pg ch =>
    let item_id := outline_ids.getD i default
    let child_ids := idsFor w.next_id (forestLength ch)
    let wc := outlineWalk item_id child_ids (forestLength ch - 1)
      { w with next_id := w.next_id + forestLength ch } 0 ch
    write_object_with_ref wc item_id
      (.Dictionary (itemDict parent_id outline_ids max_index i nm pg
        child_ids))

end

/-- DocumentWriter::write_outline_tree: allocate ids for the entire
sibling list up front so Prev and Next links can refer to them, then emit
each item in order and return the allocated ids. -/
def write_outline_tree (w : DocumentWriter) (parent_id : ObjectId)
    (outline_tree : OutlineForest) : DocumentWriter × List ObjectId :=
  let outline_ids := idsFor w.next_id (forestLength outline_tree)
  let w' := { w with next_id := w.next_id + forestLength outline_tree }
  if forestLength outline_tree ≠ 0 then
    (outlineWalk parent_id outline_ids (forestLength outline_tree - 1) w' 0
      outline_tree, outline_ids)
  else (w', outline_ids)

/-- The guard of write_outline_tree is redundant: the loop on an empty
forest returns the state unchanged, so the walk describes both branches. -/
theorem write_outline_tree_eq (w : DocumentWriter) (p : ObjectId)
    (f : OutlineForest) :
    write_outline_tree w p f =
      (outlineWalk p (idsFor w.next_id (forestLength f))
        (forestLength f - 1)
        { w with next_id := w.next_id + forestLength f } 0 f,
       idsFor w.next_id (forestLength f)) := by
  unfold write_outline_tree
  by_cases h0 : forestLength f ≠ 0
  · rw [if_pos h0]
  · rw [if_neg h0]
    cases f with
    | nil => rfl
    | cons h t =>
      exfalso
      rw [forestLength] at h0
      omega

/-- The trailer dictionary: Size is the ledger length, Root and Info point
at the catalog and the info dictionary. -/
def trailerDict (count : Nat) (root_id info_id : ObjectId) :
    List (String × Object) :=
  dictInsert (dictInsert (dictInsert [] "Size" (.Int count))
    "Root" (.Ref root_id)) "Info" (.Ref info_id)

/-- The result of finish_writing: the final writer state plus the xref
table text, the trailer dictionary and the startxref position. -/
structure FinishedDoc where
  writer : DocumentWriter
  xref : String
  trailer : List (String × Object)
  startxref : Nat

/-- The dictionary of the outline root object written for a nonempty
outline forest: Type Outlines, First and Last pointing at the first and
last top level ids. -/
def outlineRootDict (outline_ids : List ObjectId) :
    List (String × Object) :=
  dictInsert (dictInsert (dictInsert []
    "Type" (.Name "Outlines"))
    "First" (.Ref (outline_ids.getD 0 default)))
    "Last" (.Ref (outline_ids.getD (outline_ids.length - 1) default))

/-- The page tree dictionary written by finish_writing: Type Pages, Count
the number of pages, Kids the ordered page references. -/
def pagesDict (w : DocumentWriter) : List (String × Object) :=
  dictInsert (dictInsert (dictInsert []
    "Type" (.Name "Pages")) "Count" (.Int w.pages.length))
    "Kids" (.Array (w.pages.map (fun p => .Ref p.id)))

/-- The catalog dictionary written by finish_writing: Type Catalog, Pages
the page tree reference, Outlines the optional outline root converted by
the From Option conversion (null when absent). -/
def catalogDict (pages_root_id : ObjectId)
    (outline_dictionary_ref : Option ObjectId) : List (String × Object) :=
  dictInsert (dictInsert (dictInsert []
    "Type" (.Name "Catalog"))
    "Pages" (.Ref pages_root_id))
    "Outlines" (objOfOption Object.Ref outline_dictionary_ref)

/-- The sequence of writes done by finish_writing before the xref table:
page tree, outline tree, outline root when the forest is nonempty,
catalog, info dictionary.  Returns the final state plus the catalog and
info ids for the trailer. -/
def finishWriter (w : DocumentWriter) (outline_tree : OutlineForest)
    (document_info : DocumentInfo) :
    DocumentWriter × ObjectId × ObjectId :=
  let w1 := write_object_with_ref w w.pages_root_id
    (.Dictionary (pagesDict w))
  let alloc := allocId w1 0
  let outline_root_id := alloc.1
  let wt := write_outline_tree alloc.2 outline_root_id outline_tree
  let outline_ids := wt.2
  let w4 := if outline_ids.length = 0 then wt.1
    else write_object_with_ref wt.1 outline_root_id
      (.Dictionary (outlineRootDict outline_ids))
  let outline_dictionary_ref : Option ObjectId :=
    if outline_ids.length = 0 then none else some outline_root_id
  let wc := write_object_ref w4
    (.Dictionary (catalogDict w.pages_root_id outline_dictionary_ref))
  let wi := write_object_ref wc.2
    (.Dictionary document_info.into_dictionary)
  (wi.2, wc.1, wi.1)

/-- DocumentWriter::finish_writing: write the page tree, the outline tree
(adding an outline root object only when the forest is nonempty), the
catalog, the info dictionary, then the xref table and trailer. -/
def finish_writing (w : DocumentWriter) (outline_tree : OutlineForest)
    (document_info : DocumentInfo) : Except PDFError FinishedDoc :=
  let f := finishWriter w outline_tree document_info
  let xref_table_start := f.1.pos
  match write_xref_table f.1.written_objects with
  | .error e => .error e
  | .ok xref =>
    .ok { writer := f.1
          xref := xref
          trailer := trailerDict f.1.written_objects.length f.2.1 f.2.2
          startxref := xref_table_start }

/-! ### Claim C7: xref line error behaviour -/

/-- Claim C7: writing a cross-reference line fails with the offset too
large error precisely when the recorded byte offset needs more than 10
decimal digits, producing no output in that case, and for every offset
below 10 to the 10 the 20 byte line is produced. -/
theorem write_xref_line_iff_offset (o : WrittenObject) :
    write_xref_line o =
      (if 10 ^ 10 ≤ o.byte_offset then .error .ByteIndexTooLarge
       else .ok (xrefLineStr o)) := by
  by_cases h : 10 ^ 10 ≤ o.byte_offset
  · rw [if_pos h, write_xref_line]
    have hlen : ¬(natDigits o.byte_offset).length ≤ 10 := by
      intro hle
      have := (natDigits_length_le (by omega : (0:Nat) < 10)
        o.byte_offset).mp hle
      omega
    have : (padZero 10 o.byte_offset).length > 10 := by
      rw [padZero_length]; omega
    simp [this]
  · rw [if_neg h]
    exact write_xref_line_ok (by omega)

/-! ### Claim C10: stream_to_file overwrite behaviour -/

/-- Claim C10: opening onto an existing file with overwrite false fails
with FileAlreadyExists and the prior file content is untouched; with
overwrite true the writer is created and the PDF 1.7 header is the file
content. -/
theorem stream_to_file_overwrite_behaviour :
    (∀ s : String,
      stream_to_file (some s) false = .error .FileAlreadyExists
      ∧ fileAfterOpen (some s) false = some s)
    ∧ (∀ existing : Option String,
      stream_to_file existing true = .ok initialWriter
      ∧ fileAfterOpen existing true = some "%PDF-1.7") :=
  ⟨fun _ => ⟨rfl, rfl⟩, fun _ => ⟨rfl, rfl⟩⟩

/-! ### Writer extension invariants -/

/-- One writer state extends another when the objects written and the
ledger have only grown, both by the same count. -/
def WriterExtends (w w' : DocumentWriter) : Prop :=
  ∃ (dOut : List (ObjectId × Object)) (dLed : List WrittenObject),
    w'.objects_out = w.objects_out ++ dOut
    ∧ w'.written_objects = w.written_objects ++ dLed
    ∧ dOut.length = dLed.length

theorem writerExtends_refl (w : DocumentWriter) : WriterExtends w w :=
  ⟨[], [], by simp, by simp, rfl⟩

theorem writerExtends_trans {w1 w2 w3 : DocumentWriter}
    (h1 : WriterExtends w1 w2) (h2 : WriterExtends w2 w3) :
    WriterExtends w1 w3 := by
  obtain ⟨a, b, hab1, hab2, hab3⟩ := h1
  obtain ⟨c, d, hcd1, hcd2, hcd3⟩ := h2
  exact ⟨a ++ c, b ++ d, by simp [hcd1, hab1], by simp [hcd2, hab2],
    by simp [hab3, hcd3]⟩

theorem writerExtends_write (w : DocumentWriter) (id : ObjectId)
    (obj : Object) : WriterExtends w (write_object_with_ref w id obj) :=
  ⟨[(id, obj)], [⟨id, w.pos, false⟩], rfl, rfl, rfl⟩

theorem writerExtends_next_id (w : DocumentWriter) (n : Nat) :
    WriterExtends w { w with next_id := n } :=
  ⟨[], [], by simp, by simp, rfl⟩

theorem writerExtends_write_of {w w' : DocumentWriter}
    (h : WriterExtends w w') (id : ObjectId) (obj : Object) :
    WriterExtends w (write_object_with_ref w' id obj) :=
  writerExtends_trans h (writerExtends_write _ _ _)

theorem writerExtends_next_of {w w' : DocumentWriter}
    (h : WriterExtends w w') (n : Nat) :
    WriterExtends w { w' with next_id := n } :=
  writerExtends_trans h (writerExtends_next_id _ _)

/-- The outline tree walk only appends to the output and the ledger, one
ledger entry per written object. -/
theorem outline_extends (N : Nat) :
    (∀ (f : OutlineForest), sizeOf f ≤ N → ∀ pid ids mi w i,
      WriterExtends w (outlineWalk pid ids mi w i f))
    ∧ (∀ (item : OutlineItem), sizeOf item ≤ N → ∀ pid ids mi w i,
      WriterExtends w (outlineItemWrite pid ids mi w i item)) := by
  induction N using Nat.strong_induction_on with
  | _ N ih =>
    have hitem : ∀ (item : OutlineItem), sizeOf item ≤ N →
        ∀ pid ids mi w i,
          WriterExtends w (outlineItemWrite pid ids mi w i item) := by
      intro item hsz pid ids mi w i
      match item, hsz with
      | .mk nm pg ch, hsz =>
        have hch : sizeOf ch < sizeOf (OutlineItem.mk nm pg ch) := by
          simp only [OutlineItem.mk.sizeOf_spec]; omega
        rw [outlineItemWrite]
        exact writerExtends_write_of
          (writerExtends_trans (writerExtends_next_id w _)
            ((ih (sizeOf ch) (by omega)).1 ch (le_refl _) _ _ _ _ _)) _ _
    have hwalk : ∀ (f : OutlineForest), sizeOf f ≤ N → ∀ pid ids mi w i,
        WriterExtends w (outlineWalk pid ids mi w i f) := by
      intro f hsz pid ids mi w i
      match f, hsz with
      | .nil, _ => rw [outlineWalk]; exact writerExtends_refl w
      | .cons item rest, hsz =>
        have h1 : sizeOf item < sizeOf (OutlineForest.cons item rest) := by
          simp only [OutlineForest.cons.sizeOf_spec]; omega
        have h2 : sizeOf rest < sizeOf (OutlineForest.cons item rest) := by
          simp only [OutlineForest.cons.sizeOf_spec]; omega
        rw [outlineWalk]
        exact writerExtends_trans (hitem item (by omega) pid ids mi w i)
          ((ih (sizeOf rest) (by omega)).1 rest (le_refl _) pid ids mi _ _)
    exact ⟨hwalk, hitem⟩

/-! ### Claim C2: xref entry count, trailer Size, ledger count -/

/-- The number of entries emitted in the cross-reference table: the total
length of all emitted subsections. -/
def xrefEntryCount (objs : List WrittenObject) : Nat :=
  ((adjacentLists (sortObjs objs)).map List.length).sum

theorem xrefEntryCount_eq (objs : List WrittenObject) :
    xrefEntryCount objs = objs.length := by
  unfold xrefEntryCount
  rw [adjacentLists_eq_runsRec]
  have hflat : (runsRec (sortObjs objs)).flatten.length =
      (sortObjs objs).length := by
    rw [runsRec_flatten]
  rw [List.length_flatten] at hflat
  rw [hflat]
  exact (List.perm_insertionSort woRel objs).length_eq

/-- Any sequence of indirect object writes, modelling the add_image and
add_page activity between opening a document and finishing it. -/
def applyWrites (w : DocumentWriter) (writes : List (ObjectId × Object)) :
    DocumentWriter :=
  writes.foldl (fun w p => write_object_with_ref w p.1 p.2) w

/-- Writer states reachable from a successful stream_to_file by object
writes. -/
def Reachable (w : DocumentWriter) : Prop :=
  ∃ writes, w = applyWrites initialWriter writes

theorem applyWrites_extends (writes : List (ObjectId × Object)) :
    ∀ w, WriterExtends w (applyWrites w writes) := by
  induction writes with
  | nil => intro w; exact writerExtends_refl w
  | cons p rest ih =>
    intro w
    exact writerExtends_trans (writerExtends_write w p.1 p.2) (ih _)

/-- The ledger facts behind claim C2: the ledger starts with the reserved
free head entry and counts exactly one entry more than the indirect
objects written. -/
def LedgerInv (w : DocumentWriter) : Prop :=
  w.written_objects.head? = some freeHeadObj
  ∧ w.written_objects.length = 1 + w.objects_out.length

theorem ledgerInv_extends {w w' : DocumentWriter} (hw : LedgerInv w)
    (h : WriterExtends w w') : LedgerInv w' := by
  obtain ⟨hhead, hlen⟩ := hw
  obtain ⟨a, b, h1, h2, h3⟩ := h
  constructor
  · rw [h2]
    cases hl : w.written_objects with
    | nil => rw [hl] at hhead; simp at hhead
    | cons x xs => rw [hl] at hhead; simpa using hhead
  · rw [h1, h2]
    simp only [List.length_append]
    omega

theorem ledgerInv_initial : LedgerInv initialWriter := ⟨rfl, rfl⟩

theorem writerExtends_objRef_of {w w' : DocumentWriter}
    (h : WriterExtends w w') (obj : Object) :
    WriterExtends w (write_object_ref w' obj).2 :=
  writerExtends_trans h (writerExtends_trans (writerExtends_next_id _ _)
    (writerExtends_write _ _ _))

theorem writerExtends_walk (w : DocumentWriter) (pid : ObjectId)
    (ids : List ObjectId) (mi i : Nat) (f : OutlineForest) :
    WriterExtends w (outlineWalk pid ids mi w i f) :=
  (outline_extends (sizeOf f)).1 f (le_refl _) pid ids mi w i

theorem writerExtends_outline_of {w w' : DocumentWriter}
    (h : WriterExtends w w') (p : ObjectId) (tree : OutlineForest) :
    WriterExtends w (write_outline_tree w' p tree).1 := by
  rw [write_outline_tree_eq]
  exact writerExtends_trans (writerExtends_next_of h _)
    (writerExtends_walk _ _ _ _ _ _)

/-- The writes of finish_writing only extend the writer state. -/
theorem finishWriter_extends (w : DocumentWriter)
    (tree : OutlineForest) (info : DocumentInfo) :
    WriterExtends w (finishWriter w tree info).1 := by
  unfold finishWriter
  simp only []
  refine writerExtends_objRef_of (writerExtends_objRef_of ?_ _) _
  by_cases h0 : (write_outline_tree
      (allocId (write_object_with_ref w w.pages_root_id
        (.Dictionary (pagesDict w))) 0).2
      (allocId (write_object_with_ref w w.pages_root_id
        (.Dictionary (pagesDict w))) 0).1 tree).2.length = 0
  · rw [if_pos h0]
    exact writerExtends_outline_of
      (writerExtends_next_of (writerExtends_write _ _ _) _) _ _
  · rw [if_neg h0]
    exact writerExtends_write_of (writerExtends_outline_of
      (writerExtends_next_of (writerExtends_write _ _ _) _) _ _) _ _

/-- finish_writing only appends to the ledger and the output, and its
trailer is the trailer dictionary built from the final ledger length. -/
theorem finish_writing_spec (w : DocumentWriter)
    (tree : OutlineForest) (info : DocumentInfo) (fd : FinishedDoc)
    (hfin : finish_writing w tree info = .ok fd) :
    WriterExtends w fd.writer
    ∧ ∃ cid iid, fd.trailer =
        trailerDict fd.writer.written_objects.length cid iid := by
  unfold finish_writing at hfin
  simp only [] at hfin
  split at hfin
  · exact absurd hfin (by simp)
  · rw [Except.ok.injEq] at hfin
    subst hfin
    exact ⟨finishWriter_extends w tree info, _, _, rfl⟩

theorem trailerDict_size (n : Nat) (cid iid : ObjectId) :
    dictFind (trailerDict n cid iid) "Size" = some (.Int n) := by
  unfold trailerDict
  rw [dictFind_insert_ne _ (by decide) _, dictFind_insert_ne _ (by decide) _,
    dictFind_insert_self]

/-- Claim C2: for every document opened by stream_to_file, written to, and
finished, the number of xref entries equals the Size value of the trailer,
and both equal the number of WrittenObject entries recorded, which is one
more than the objects written, the extra entry being the reserved free
head recorded at document open. -/
theorem finished_doc_counts (w : DocumentWriter) (hreach : Reachable w)
    (tree : OutlineForest) (info : DocumentInfo) (fd : FinishedDoc)
    (hfin : finish_writing w tree info = .ok fd) :
    xrefEntryCount fd.writer.written_objects =
      fd.writer.written_objects.length
    ∧ dictFind fd.trailer "Size" =
        some (.Int fd.writer.written_objects.length)
    ∧ fd.writer.written_objects.head? = some freeHeadObj
    ∧ fd.writer.written_objects.length =
        1 + fd.writer.objects_out.length := by
  obtain ⟨hext, cid, iid, htr⟩ := finish_writing_spec w tree info fd hfin
  have hinvw : LedgerInv w := by
    obtain ⟨writes, rfl⟩ := hreach
    exact ledgerInv_extends ledgerInv_initial
      (applyWrites_extends writes initialWriter)
  have hinv : LedgerInv fd.writer := ledgerInv_extends hinvw hext
  refine ⟨xrefEntryCount_eq _, ?_, hinv.1, hinv.2⟩
  rw [htr, trailerDict_size]

instance : Inhabited DocumentWriter := ⟨⟨0, [], default, [], [], 0⟩⟩

instance : Inhabited FinishedDoc := ⟨⟨default, "", [], 0⟩⟩

/-- A concrete document for the claim C2 witness: one object written after
opening, then finished with no outline and empty info. -/
def c2Writes : List (ObjectId × Object) := [(⟨2, 0⟩, .Null)]

def c2fd : FinishedDoc :=
  match finish_writing (applyWrites initialWriter c2Writes) .nil ⟨none, none⟩
    with
  | .ok fd => fd
  | .error _ => default

/-- Concrete instantiation of claim C2. -/
theorem finished_doc_counts_witness :
    xrefEntryCount c2fd.writer.written_objects =
      c2fd.writer.written_objects.length
    ∧ dictFind c2fd.trailer "Size" =
        some (.Int c2fd.writer.written_objects.length)
    ∧ c2fd.writer.written_objects.head? = some freeHeadObj
    ∧ c2fd.writer.written_objects.length =
        1 + c2fd.writer.objects_out.length :=
  finished_doc_counts (applyWrites initialWriter c2Writes)
    ⟨c2Writes, rfl⟩ .nil ⟨none, none⟩ c2fd rfl

/-! ### Claim C4: catalog Outlines entry for an empty forest -/

/-- The object written under an id, if any (first match in write order). -/
def findWritten (w : DocumentWriter) (id : ObjectId) : Option Object :=
  (w.objects_out.find? (fun p => p.1 == id)).map (fun p => p.2)

theorem catalogDict_type (p : ObjectId) (r : Option ObjectId) :
    dictFind (catalogDict p r) "Type" = some (.Name "Catalog") := by
  unfold catalogDict
  rw [dictFind_insert_ne _ (by decide) _, dictFind_insert_ne _ (by decide) _,
    dictFind_insert_self]

theorem catalogDict_outlines (p : ObjectId) (r : Option ObjectId) :
    dictFind (catalogDict p r) "Outlines" = some (objOfOption Object.Ref r) := by
  unfold catalogDict
  exact dictFind_insert_self _ _ _

/-- For an empty outline forest the catalog object written by
finish_writing carries an Outlines key bound to the null object (the From
Option conversion of None), rather than omitting the key. -/
theorem catalog_outlines_null (w : DocumentWriter) (info : DocumentInfo)
    (fd : FinishedDoc) (hfin : finish_writing w .nil info = .ok fd) :
    ∃ cid d, (cid, Object.Dictionary d) ∈ fd.writer.objects_out
      ∧ dictFind d "Type" = some (.Name "Catalog")
      ∧ dictFind d "Outlines" = some Object.Null := by
  unfold finish_writing at hfin
  simp only [] at hfin
  split at hfin
  · exact absurd hfin (by simp)
  · rw [Except.ok.injEq] at hfin
    subst hfin
    refine ⟨(finishWriter w .nil info).2.1,
      catalogDict w.pages_root_id none, ?_,
      catalogDict_type _ _, catalogDict_outlines _ _⟩
    unfold finishWriter
    simp only [write_outline_tree_eq, forestLength, idsFor, List.range_zero,
      List.map_nil, List.length_nil, if_pos rfl, write_object_ref, allocId,
      write_object_with_ref, outlineWalk]
    simp

/-- The concrete document refuting claim C4 as stated: open a fresh
document, finish it with no outline items and empty info. -/
def c4fd : FinishedDoc :=
  match finish_writing initialWriter .nil ⟨none, none⟩ with
  | .ok fd => fd
  | .error _ => default

/-- Counterexample to claim C4 as stated: in the finished empty document
the catalog (object 3) does contain an Outlines entry, bound to null. -/
theorem catalog_outlines_entry_present :
    findWritten c4fd.writer ⟨3, 0⟩ =
      some (Object.Dictionary (catalogDict ⟨1, 0⟩ none))
    ∧ dictFind (catalogDict ⟨1, 0⟩ none) "Outlines" = some Object.Null :=
  ⟨rfl, rfl⟩

/-- Concrete instantiation of the amended claim C4. -/
theorem catalog_outlines_null_witness :
    ∃ cid d, (cid, Object.Dictionary d) ∈ c4fd.writer.objects_out
      ∧ dictFind d "Type" = some (.Name "Catalog")
      ∧ dictFind d "Outlines" = some Object.Null :=
  catalog_outlines_null initialWriter ⟨none, none⟩ c4fd rfl

/-! ### Claim C6: outline linkage -/

theorem find_skip_insert (k k' : String) (h : k ≠ k')
    (d : List (String × Object)) (v : Object) :
    dictFind (dictInsert d k' v) k = dictFind d k :=
  dictFind_insert_ne d h v

theorem find_skip_if_insert (k k' : String) (h : k ≠ k') (c : Prop)
    [Decidable c] (d : List (String × Object)) (v : Object) :
    dictFind (if c then dictInsert d k' v else d) k = dictFind d k := by
  by_cases hc : c
  · simp only [if_pos hc, dictFind_insert_ne d h v]
  · simp only [if_neg hc]

theorem find_at_if_insert (k : String) (c : Prop) [Decidable c]
    (d : List (String × Object)) (v : Object) :
    dictFind (if c then dictInsert d k v else d) k =
      if c then some v else dictFind d k := by
  by_cases hc : c
  · simp only [if_pos hc, dictFind_insert_self]
  · simp only [if_neg hc]

theorem find_skip_childblock (k : String) (hk1 : k ≠ "First")
    (hk2 : k ≠ "Last") (hk3 : k ≠ "Count") (c : Prop) [Decidable c]
    (d : List (String × Object)) (f l cnt : Object) :
    dictFind (if c then dictInsert (dictInsert (dictInsert d "First" f)
        "Last" l) "Count" cnt else d) k = dictFind d k := by
  by_cases hc : c
  · simp only [if_pos hc, dictFind_insert_ne _ hk3, dictFind_insert_ne _ hk2,
      dictFind_insert_ne _ hk1]
  · simp only [if_neg hc]

theorem itemDict_find_title (p : ObjectId) (ids : List ObjectId)
    (mi i : Nat) (nm : String) (pg : PageRef) (cids : List ObjectId) :
    dictFind (itemDict p ids mi i nm pg cids) "Title" = some (.Str nm) := by
  simp only [itemDict]
  rw [find_skip_childblock "Title" (by decide) (by decide) (by decide),
    find_skip_insert "Title" "Dest" (by decide),
    find_skip_if_insert "Title" "Next" (by decide),
    find_skip_if_insert "Title" "Prev" (by decide),
    find_skip_insert "Title" "Parent" (by decide),
    dictFind_insert_self]

theorem itemDict_find_parent (p : ObjectId) (ids : List ObjectId)
    (mi i : Nat) (nm : String) (pg : PageRef) (cids : List ObjectId) :
    dictFind (itemDict p ids mi i nm pg cids) "Parent" = some (.Ref p) := by
  simp only [itemDict]
  rw [find_skip_childblock "Parent" (by decide) (by decide) (by decide),
    find_skip_insert "Parent" "Dest" (by decide),
    find_skip_if_insert "Parent" "Next" (by decide),
    find_skip_if_insert "Parent" "Prev" (by decide),
    dictFind_insert_self]

theorem itemDict_find_prev (p : ObjectId) (ids : List ObjectId)
    (mi i : Nat) (nm : String) (pg : PageRef) (cids : List ObjectId) :
    dictFind (itemDict p ids mi i nm pg cids) "Prev" =
      if i > 0 then some (.Ref (ids.getD (i - 1) default)) else none := by
  simp only [itemDict]
  rw [find_skip_childblock "Prev" (by decide) (by decide) (by decide),
    find_skip_insert "Prev" "Dest" (by decide),
    find_skip_if_insert "Prev" "Next" (by decide),
    find_at_if_insert "Prev",
    find_skip_insert "Prev" "Parent" (by decide),
    find_skip_insert "Prev" "Title" (by decide)]
  rfl

theorem itemDict_find_next (p : ObjectId) (ids : List ObjectId)
    (mi i : Nat) (nm : String) (pg : PageRef) (cids : List ObjectId) :
    dictFind (itemDict p ids mi i nm pg cids) "Next" =
      if i < mi then some (.Ref (ids.getD (i + 1) default)) else none := by
  simp only [itemDict]
  rw [find_skip_childblock "Next" (by decide) (by decide) (by decide),
    find_skip_insert "Next" "Dest" (by decide),
    find_at_if_insert "Next",
    find_skip_if_insert "Next" "Prev" (by decide),
    find_skip_insert "Next" "Parent" (by decide),
    find_skip_insert "Next" "Title" (by decide)]
  rfl

theorem itemDict_find_count (p : ObjectId) (ids : List ObjectId)
    (mi i : Nat) (nm : String) (pg : PageRef) (cids : List ObjectId)
    (h : cids.length > 0) :
    dictFind (itemDict p ids mi i nm pg cids) "Count" =
      some (.Int (-(cids.length : Int))) := by
  simp only [itemDict, if_pos h]
  rw [dictFind_insert_self]

theorem itemDict_find_first (p : ObjectId) (ids : List ObjectId)
    (mi i : Nat) (nm : String) (pg : PageRef) (cids : List ObjectId)
    (h : cids.length > 0) :
    dictFind (itemDict p ids mi i nm pg cids) "First" =
      some (.Ref (cids.getD 0 default)) := by
  simp only [itemDict, if_pos h]
  rw [find_skip_insert "First" "Count" (by decide),
    find_skip_insert "First" "Last" (by decide),
    dictFind_insert_self]

theorem itemDict_find_last (p : ObjectId) (ids : List ObjectId)
    (mi i : Nat) (nm : String) (pg : PageRef) (cids : List ObjectId)
    (h : cids.length > 0) :
    dictFind (itemDict p ids mi i nm pg cids) "Last" =
      some (.Ref (cids.getD (cids.length - 1) default)) := by
  simp only [itemDict, if_pos h]
  rw [find_skip_insert "Last" "Count" (by decide),
    dictFind_insert_self]

theorem idsFor_length (nid len : Nat) : (idsFor nid len).length = len := by
  simp [idsFor]

theorem idsFor_getD (nid len j : Nat) (h : j < len) :
    (idsFor nid len).getD j default = ⟨nid + j, 0⟩ := by
  simp [idsFor, List.getD, h]

/-- Everything claim C6 asserts about the dictionary of the outline item
written at position i of a sibling list of length k whose ids start at
nid0: Title and Parent entries, no Prev for the first item and no Next for
the last, Prev and Next pointing at the adjacent sibling ids otherwise,
and, when the item has c children, Count bound to minus c with First and
Last pointing at the first and last child ids, the children being objects
written with Parent pointing back at this item. -/
def itemDictProps (d : List (String × Object)) (parent : ObjectId)
    (nid0 k i : Nat) (item : OutlineItem)
    (out : List (ObjectId × Object)) : Prop :=
  dictFind d "Title" = some (.Str item.name)
  ∧ dictFind d "Parent" = some (.Ref parent)
  ∧ (¬0 < i → dictFind d "Prev" = none)
  ∧ (0 < i → dictFind d "Prev" = some (.Ref ⟨nid0 + (i - 1), 0⟩))
  ∧ (¬i < k - 1 → dictFind d "Next" = none)
  ∧ (i < k - 1 → dictFind d "Next" = some (.Ref ⟨nid0 + (i + 1), 0⟩))
  ∧ (0 < forestLength item.children →
      dictFind d "Count" =
        some (.Int (-(forestLength item.children : Int)))
      ∧ ∃ cstart,
          dictFind d "First" = some (.Ref ⟨cstart, 0⟩)
          ∧ dictFind d "Last" =
              some (.Ref ⟨cstart + (forestLength item.children - 1), 0⟩)
          ∧ ∀ jc, jc < forestLength item.children → ∃ dc,
              (ObjectId.mk (cstart + jc) 0, Object.Dictionary dc) ∈ out
              ∧ dictFind dc "Parent" = some (.Ref ⟨nid0 + i, 0⟩))

theorem mem_of_extends {x : ObjectId × Object} {w w' : DocumentWriter}
    (h : WriterExtends w w') (hx : x ∈ w.objects_out) :
    x ∈ w'.objects_out := by
  obtain ⟨a, b, h1, _, _⟩ := h
  rw [h1]
  exact List.mem_append_left _ hx

theorem itemDictProps_mono {d : List (String × Object)} {parent : ObjectId}
    {nid0 k i : Nat} {item : OutlineItem}
    {out out' : List (ObjectId × Object)}
    (h : itemDictProps d parent nid0 k i item out)
    (hsub : ∀ x, x ∈ out → x ∈ out') :
    itemDictProps d parent nid0 k i item out' := by
  obtain ⟨h1, h2, h3, h4, h5, h6, h7⟩ := h
  refine ⟨h1, h2, h3, h4, h5, h6, fun hc => ?_⟩
  obtain ⟨hcnt, cstart, hf, hl, hkids⟩ := h7 hc
  refine ⟨hcnt, cstart, hf, hl, fun jc hjc => ?_⟩
  obtain ⟨dc, hdc1, hdc2⟩ := hkids jc hjc
  exact ⟨dc, hsub _ hdc1, hdc2⟩

/-- The content of the outline walk: the item at each position of the
sibling list is written under its preallocated id with the linkage
dictionary described by itemDictProps. -/
theorem outline_spec (N : Nat) :
    (∀ (f : OutlineForest), sizeOf f ≤ N →
      ∀ (nid0 k i : Nat) (w : DocumentWriter) (parent : ObjectId),
        i + forestLength f = k →
        ∀ j, j < forestLength f → ∃ d,
          (ObjectId.mk (nid0 + (i + j)) 0, Object.Dictionary d) ∈
              (outlineWalk parent (idsFor nid0 k) (k - 1) w i f).objects_out
          ∧ itemDictProps d parent nid0 k (i + j) (forestGet f j)
              (outlineWalk parent (idsFor nid0 k) (k - 1) w i
                f).objects_out)
    ∧ (∀ (item : OutlineItem), sizeOf item ≤ N →
      ∀ (nid0 k i : Nat) (w : DocumentWriter) (parent : ObjectId),
        i < k → ∃ d,
          (ObjectId.mk (nid0 + i) 0, Object.Dictionary d) ∈
              (outlineItemWrite parent (idsFor nid0 k) (k - 1) w i
                item).objects_out
          ∧ itemDictProps d parent nid0 k i item
              (outlineItemWrite parent (idsFor nid0 k) (k - 1) w i
                item).objects_out) := by
  induction N using Nat.strong_induction_on with
  | _ N ih =>
    have hitem : ∀ (item : OutlineItem), sizeOf item ≤ N →
        ∀ (nid0 k i : Nat) (w : DocumentWriter) (parent : ObjectId),
          i < k → ∃ d,
            (ObjectId.mk (nid0 + i) 0, Object.Dictionary d) ∈
                (outlineItemWrite parent (idsFor nid0 k) (k - 1) w i
                  item).objects_out
            ∧ itemDictProps d parent nid0 k i item
                (outlineItemWrite parent (idsFor nid0 k) (k - 1) w i
                  item).objects_out := by
      intro item hsz nid0 k i w parent hik
      match item, hsz with
      | .mk nm pg ch, hsz =>
        have hch : sizeOf ch < sizeOf (OutlineItem.mk nm pg ch) := by
          simp only [OutlineItem.mk.sizeOf_spec]; omega
        rw [outlineItemWrite]
        refine ⟨itemDict parent (idsFor nid0 k) (k - 1) i nm pg
          (idsFor w.next_id (forestLength ch)), ?_, ?_⟩
        · simp only [write_object_with_ref, idsFor_getD nid0 k i hik]
          exact List.mem_append_right _ (by simp)
        · constructor
          · rw [itemDict_find_title]; rfl
          · constructor
            · rw [itemDict_find_parent]
            constructor
            · intro h0
              rw [itemDict_find_prev, if_neg h0]
            constructor
            · intro h0
              rw [itemDict_find_prev, if_pos h0,
                idsFor_getD nid0 k (i - 1) (by omega)]
            constructor
            · intro h0
              rw [itemDict_find_next, if_neg h0]
            constructor
            · intro h0
              rw [itemDict_find_next, if_pos h0,
                idsFor_getD nid0 k (i + 1) (by omega)]
            · intro hc
              simp only [OutlineItem.children] at hc ⊢
              have hlen : (idsFor w.next_id (forestLength ch)).length =
                  forestLength ch := idsFor_length _ _
              have hlen0 : (idsFor w.next_id (forestLength ch)).length > 0 := by
                omega
              constructor
              · rw [itemDict_find_count _ _ _ _ _ _ _ hlen0, hlen]
              refine ⟨w.next_id, ?_, ?_, ?_⟩
              · rw [itemDict_find_first _ _ _ _ _ _ _ hlen0,
                  idsFor_getD w.next_id (forestLength ch) 0 (by omega),
                  Nat.add_zero]
              · rw [itemDict_find_last _ _ _ _ _ _ _ hlen0, hlen,
                  idsFor_getD w.next_id (forestLength ch)
                    (forestLength ch - 1) (by omega)]
              · intro jc hjc
                have hwalkch := (ih (sizeOf ch) (by omega)).1 ch (le_refl _)
                  w.next_id (forestLength ch) 0
                  { w with next_id := w.next_id + forestLength ch }
                  ((idsFor nid0 k).getD i default) (by omega) jc hjc
                have hmi : forestLength ch - 1 + 1 - 1 = forestLength ch - 1 := by
                  omega
                obtain ⟨dc, hdc1, hdc2⟩ := by
                  have := hwalkch
                  rw [Nat.zero_add] at this
                  exact this
                refine ⟨dc, ?_, ?_⟩
                · simp only [write_object_with_ref, List.mem_append]
                  left
                  exact hdc1
                · have := hdc2.2.1
                  rw [idsFor_getD nid0 k i hik] at this
                  exact this
    have hwalk : ∀ (f : OutlineForest), sizeOf f ≤ N →
        ∀ (nid0 k i : Nat) (w : DocumentWriter) (parent : ObjectId),
          i + forestLength f = k →
          ∀ j, j < forestLength f → ∃ d,
            (ObjectId.mk (nid0 + (i + j)) 0, Object.Dictionary d) ∈
                (outlineWalk parent (idsFor nid0 k) (k - 1) w i
                  f).objects_out
            ∧ itemDictProps d parent nid0 k (i + j) (forestGet f j)
                (outlineWalk parent (idsFor nid0 k) (k - 1) w i
                  f).objects_out := by
      intro f hsz nid0 k i w parent hik j hj
      match f, hsz with
      | .nil, _ => rw [forestLength] at hj; omega
      | .cons item rest, hsz =>
        have h1 : sizeOf item < sizeOf (OutlineForest.cons item rest) := by
          simp only [OutlineForest.cons.sizeOf_spec]; omega
        have h2 : sizeOf rest < sizeOf (OutlineForest.cons item rest) := by
          simp only [OutlineForest.cons.sizeOf_spec]; omega
        rw [outlineWalk]
        have hlen : forestLength (OutlineForest.cons item rest) =
            forestLength rest + 1 := by rw [forestLength]
        cases j with
        | zero =>
          have hik' : i < k := by omega
          obtain ⟨d, hmem, hprops⟩ :=
            hitem item (by omega) nid0 k i w parent hik'
          have hext : WriterExtends
              (outlineItemWrite parent (idsFor nid0 k) (k - 1) w i item)
              (outlineWalk parent (idsFor nid0 k) (k - 1)
                (outlineItemWrite parent (idsFor nid0 k) (k - 1) w i item)
                (i + 1) rest) :=
            writerExtends_walk _ _ _ _ _ _
          refine ⟨d, ?_, ?_⟩
          · simpa using mem_of_extends hext hmem
          · have : forestGet (OutlineForest.cons item rest) 0 = item := rfl
            rw [this]
            simpa using itemDictProps_mono hprops
              (fun x hx => mem_of_extends hext hx)
        | succ j' =>
          have hj' : j' < forestLength rest := by omega
          have hres := (ih (sizeOf rest) (by omega)).1 rest (le_refl _)
            nid0 k (i + 1)
            (outlineItemWrite parent (idsFor nid0 k) (k - 1) w i item)
            parent (by omega) j' hj'
          have harith : i + 1 + j' = i + (j' + 1) := by omega
          rw [harith] at hres
          have hget : forestGet (OutlineForest.cons item rest) (j' + 1) =
              forestGet rest j' := rfl
          rw [hget]
          exact hres
    exact ⟨hwalk, hitem⟩

/-- Everything claim C6 states about an emitted sibling list: the returned
ids are the preallocated consecutive ids, and each item is written under
its id with the linkage dictionary of itemDictProps. -/
def C6Spec (w : DocumentWriter) (parent : ObjectId) (f : OutlineForest) :
    Prop :=
  (write_outline_tree w parent f).2 = idsFor w.next_id (forestLength f)
  ∧ ∀ j, j < forestLength f → ∃ d,
      (ObjectId.mk (w.next_id + j) 0, Object.Dictionary d) ∈
          (write_outline_tree w parent f).1.objects_out
      ∧ itemDictProps d parent w.next_id (forestLength f) j (forestGet f j)
          (write_outline_tree w parent f).1.objects_out

/-- Claim C6: for every sibling list of more than one outline item emitted
by the outline tree encoder, the first item has no Prev, the last has no
Next, every other item has Prev and Next pointing at the adjacent sibling
ids, and every item with c children has Count equal to minus c together
with First and Last pointing at its first and last child ids. -/
theorem outline_linkage (w : DocumentWriter) (parent : ObjectId)
    (f : OutlineForest) (_hk : 1 < forestLength f) :
    C6Spec w parent f := by
  constructor
  · rw [write_outline_tree_eq]
  · intro j hj
    rw [write_outline_tree_eq]
    have := (outline_spec (sizeOf f)).1 f (le_refl _) w.next_id
      (forestLength f) 0 { w with next_id := w.next_id + forestLength f }
      parent (by omega) j hj
    simpa using this

/-- A concrete forest for the claim C6 witness: two chapters, the first
with one child section. -/
def c6Forest : OutlineForest :=
  .cons (.mk "Ch1" ⟨⟨9, 0⟩, 100.0⟩
    (.cons (.mk "S1" ⟨⟨9, 0⟩, 100.0⟩ .nil) .nil))
    (.cons (.mk "Ch2" ⟨⟨9, 0⟩, 100.0⟩ .nil) .nil)

/-- Concrete instantiation of claim C6 on a two item sibling list. -/
theorem outline_linkage_witness : C6Spec initialWriter ⟨5, 0⟩ c6Forest :=
  outline_linkage initialWriter ⟨5, 0⟩ c6Forest (by decide)

/-! ### String serialization (objects.rs, Object::write_to Str branch;
utils.rs, to_utf16) -/

/-- Rust str::is_ascii on the character list model of a string. -/
def strIsAscii (s : List Char) : Bool := s.all (fun c => c.toNat < 128)

/-- The UTF-16 code units of one character (str::encode_utf16): one unit
below 0x10000, otherwise the surrogate pair. -/
def utf16Units (c : Char) : List Nat :=
  if c.toNat < 65536 then [c.toNat]
  else [55296 + (c.toNat - 65536) / 1024, 56320 + (c.toNat - 65536) % 1024]

/-- Big endian bytes of a 16 bit code unit (u16::to_be_bytes). -/
def beBytes (u : Nat) : List Nat := [u / 256, u % 256]

/-- utils::to_utf16: the byte order mark FE FF followed by the big endian
bytes of every UTF-16 code unit of the string. -/
def to_utf16 (s : List Char) : List Nat :=
  [254, 255] ++ s.flatMap (fun c => (utf16Units c).flatMap beBytes)

/-- The escaping loop of write_string_bytes: a backslash byte is inserted
before every byte equal to 0x28, 0x29 or 0x5C; all other bytes pass
through unchanged. -/
def escapeStringBytes : List Nat → List Nat
  | [] => []
  | b :: bs =>
    if b = 40 ∨ b = 41 ∨ b = 92 then 92 :: b :: escapeStringBytes bs
    else b :: escapeStringBytes bs

/-- The Str branch of Object::write_to: an opening parenthesis, the
escaped bytes, a closing parenthesis; a pure ASCII string contributes its
bytes directly (UTF-8 of ASCII is the identity on code points), any other
string goes through to_utf16 first. -/
def writeStrObject (s : List Char) : List Nat :=
  if strIsAscii s then
    40 :: (escapeStringBytes (s.map Char.toNat) ++ [41])
  else
    40 :: (escapeStringBytes (to_utf16 s) ++ [41])

theorem escapeStringBytes_flatMap (bs : List Nat) :
    escapeStringBytes bs = bs.flatMap
      (fun b => if b = 40 ∨ b = 41 ∨ b = 92 then [92, b] else [b]) := by
  induction bs with
  | nil => rfl
  | cons b rest ih =>
    rw [escapeStringBytes]
    by_cases hb : b = 40 ∨ b = 41 ∨ b = 92
    · simp [hb, ih]
    · simp [hb, ih]

/-- Claim C9: a string containing a non ASCII character is written as an
opening parenthesis, the byte order mark FE FF, then the UTF-16BE code
unit bytes with a backslash inserted before every byte equal to 0x28, 0x29
or 0x5C (including bytes that are halves of a code unit), then a closing
parenthesis. -/
theorem string_written_as_utf16 (s : List Char)
    (h : strIsAscii s = false) :
    writeStrObject s =
      40 :: 254 :: 255 ::
        ((s.flatMap (fun c => (utf16Units c).flatMap beBytes)).flatMap
          (fun b => if b = 40 ∨ b = 41 ∨ b = 92 then [92, b] else [b])
        ++ [41]) := by
  rw [writeStrObject, if_neg (by simp [h]), to_utf16,
    escapeStringBytes_flatMap, List.flatMap_append]
  simp

/-- Concrete instantiation of claim C9 on the one character string U+0128:
the low byte 0x28 of the code unit is escaped. -/
theorem string_written_as_utf16_witness :
    writeStrObject [Char.ofNat 296] = [40, 254, 255, 1, 92, 40, 41] := by
  rw [string_written_as_utf16 [Char.ofNat 296] (by decide)]
  decide

/-! ### Name serialization (objects.rs, Name::write_to) -/

/-- Modelled from the spec: the constant DELIMITER_CHARS referenced by
Name::write_to is not present under src; per the spec a name byte is hex
escaped when outside the printable, non delimiter ASCII range, the
delimiters being the ten PDF delimiter characters ( ) < > [ ] { } / %. -/
def DELIMITER_CHARS : List Nat :=
  [40, 41, 60, 62, 91, 93, 123, 125, 47, 37]

/-- ASCII code of an uppercase hexadecimal digit. -/
def hexDigitCode (n : Nat) : Nat := if n < 10 then 48 + n else 55 + n

/-- The unpadded uppercase hex formatting of a byte value: one digit below
16, two digits otherwise (name bytes are below 256). -/
def hexBytesUpper (b : Nat) : List Nat :=
  if b < 16 then [hexDigitCode b]
  else [hexDigitCode (b / 16), hexDigitCode (b % 16)]

/-- Name::write_to on the byte sequence of the name (the UTF-8 bytes of
the wrapped string): a slash, then per byte: 0x23 '#' escaped as "#23",
printable non delimiter ASCII copied unchanged, and any other byte written
as '#' followed by the unpadded uppercase hex digits of its value. -/
def nameWriteBytes (bytes : List Nat) : List Nat :=
  47 :: bytes.flatMap (fun b =>
    if b = 35 then [35, 50, 51]
    else if (33 ≤ b ∧ b ≤ 126) ∧ ¬b ∈ DELIMITER_CHARS then [b]
    else 35 :: hexBytesUpper b)

/-- Modelled from the spec: the value of one hexadecimal digit byte, for
the round trip decoding the spec asserts. -/
def hexVal (c : Nat) : Option Nat :=
  if 48 ≤ c ∧ c ≤ 57 then some (c - 48)
  else if 65 ≤ c ∧ c ≤ 70 then some (c - 55)
  else if 97 ≤ c ∧ c ≤ 102 then some (c - 87)
  else none

/-- Modelled from the spec: PDF name decoding of the escaped byte
sequence, where a '#' introduces exactly two hexadecimal digits forming
one byte; a '#' not followed by two hexadecimal digits is malformed. -/
def decodeNameBytes : List Nat → Option (List Nat)
  | [] => some []
  | 35 :: d1 :: d2 :: rest =>
    match hexVal d1, hexVal d2, decodeNameBytes rest with
    | some h1, some h2, some tail => some ((h1 * 16 + h2) :: tail)
    | _, _, _ => none
  | [35] => none
  | [35, _] => none
  | b :: rest => (decodeNameBytes rest).map (fun tail => b :: tail)

/-- Evaluation of the name serializer at the byte 0x0A: the escape is
written with a single hexadecimal digit ("#A" after the slash), not two,
and decoding the escaped form per the PDF rules fails instead of
recovering the byte. -/
theorem name_escape_single_digit :
    nameWriteBytes [10] = [47, 35, 65]
    ∧ decodeNameBytes [35, 65] = none
    ∧ nameWriteBytes [26] = [47, 35, 49, 65]
    ∧ decodeNameBytes [35, 49, 65] = some [26] := by
  refine ⟨?_, ?_, ?_, ?_⟩ <;> decide

/-! ### Image ingestion (pdf_image.rs) -/

/-- The pixel format tags of the external image crate (image::ColorType),
each carrying its bit depth. -/
inductive ColorType where
  | Gray (bits : Nat)
  | GrayA (bits : Nat)
  | RGB (bits : Nat)
  | RGBA (bits : Nat)
  | Palette (bits : Nat)
  | BGR (bits : Nat)
  | BGRA (bits : Nat)
deriving DecidableEq

/-- The colour classification of pdf_image.rs (ColourType). -/
inductive ColourType where
  | Gray
  | RGB
deriving DecidableEq

/-- ColourType::from_image_colour_type: only plain Gray and RGB decoded
formats classify; every other format yields None. -/
def fromImageColourType : ColorType → Option ColourType
  | .Gray _ => some .Gray
  | .RGB _ => some .RGB
  | _ => none

/-- The channels of get_pixel at one position; the image crate returns
RGBA channel order for every underlying format, and the alpha channel is
never read by this crate. -/
structure Pixel where
  c0 : Nat
  c1 : Nat
  c2 : Nat
deriving DecidableEq

/-- A decoded image as observed by this crate (image::DynamicImage):
dimensions, pixel format tag and pixel accessor. -/
structure RawImage where
  width : Nat
  height : Nat
  color : ColorType
  pixel : Nat → Nat → Pixel

/-- pdf_image.rs, image_can_be_grayscale: sample the fixed 20 by 20 grid
of positions width times count over 20 and height times count over 20 and
require every sampled pixel's second and third channels to equal its
first. -/
def image_can_be_grayscale (img : RawImage) : Bool :=
  ((List.range 20).map (fun count => img.width * count / 20)).all fun x =>
    ((List.range 20).map (fun count => img.height * count / 20)).all fun y =>
      decide ((img.pixel x y).c1 = (img.pixel x y).c0)
        && decide ((img.pixel x y).c2 = (img.pixel x y).c0)

/-- DynamicImage::to_luma as observed by this crate: the result is a
single channel Gray image; the luma pixel transform itself belongs to the
external image codec collaborator and is not observed by any claim. -/
def to_luma (img : RawImage) : RawImage := { img with color := .Gray 8 }

/-- DynamicImage::to_rgb as observed by this crate: the result is tagged
RGB; get_pixel values are unchanged by the representation change. -/
def to_rgb (img : RawImage) : RawImage := { img with color := .RGB 8 }

/-- The two encodings produced (pdf_image.rs, ImageType). -/
inductive ImageType where
  | FlateLossless
  | Jpg
deriving DecidableEq

/-- The produced image resource description (pdf_image.rs, PDFImage).  The
encoded payload bytes come from the external codecs and are not
modelled. -/
structure PDFImage where
  width : Nat
  height : Nat
  image_type : ImageType
  colour_type : ColourType
deriving DecidableEq

/-- The try_to_convert_to_grayscale closure of from_image. -/
def try_to_convert_to_grayscale (img : RawImage) (old : ColourType) :
    RawImage × ColourType :=
  if image_can_be_grayscale img then (to_luma img, .Gray) else (img, old)

/-- PDFImage::from_image: classify by the decoded pixel format, demoting
sampled achromatic RGB to Gray, converting GrayA to Gray and the palette,
alpha and BGR variants to RGB before the same demotion test; then encode
(the external encoders' failures are not modelled, the function itself
constructs no error). -/
def from_image (img : RawImage) (lossless : Bool) : PDFImage :=
  let conv := match img.color with
    | .Gray _ => (img, ColourType.Gray)
    | .RGB _ => try_to_convert_to_grayscale img .RGB
    | .GrayA _ => (to_luma img, ColourType.Gray)
    | .Palette _ | .RGBA _ | .BGR _ | .BGRA _ =>
        try_to_convert_to_grayscale (to_rgb img) .RGB
  { width := conv.1.width
    height := conv.1.height
    image_type := if lossless then .FlateLossless else .Jpg
    colour_type := conv.2 }

/-- PDFImage::from_bytes over the decoded form of the input: the eager
classification is performed before the JPEG passthrough test, so it fails
with the unsupported colour format error for every decoded format other
than plain Gray or RGB; JPEG inputs are then passed through and everything
else goes to from_image. -/
def from_bytes (decoded : RawImage) (isJpeg : Bool) (lossless : Bool) :
    Except PDFError PDFImage :=
  match fromImageColourType decoded.color with
  | none => .error .BadImageColourType
  | some colour_type =>
    if isJpeg then
      .ok { width := decoded.width, height := decoded.height,
            image_type := .Jpg, colour_type := colour_type }
    else .ok (from_image decoded lossless)

/-- A decoded RGBA input (for example a PNG with an alpha channel). -/
def rgbaImage : RawImage := ⟨4, 4, .RGBA 8, fun _ _ => ⟨7, 7, 7⟩⟩

/-- Counterexample to claim C5 as stated: ingestion of a non JPEG input
whose decoded pixel format is RGBA does not classify it down to RGB; it
fails with the unsupported colour format error. -/
theorem from_bytes_rejects_rgba :
    from_bytes rgbaImage false false = .error .BadImageColourType := rfl

/-- Amended claim C5: from_bytes returns the unsupported colour format
error exactly when the decoded pixel format is not plain Gray or RGB —
including the palette, alpha and BGR variants — while the from_image entry
point classifies those variants down to Gray or RGB (GrayA to Gray, the
others to RGB or, when the sampled grid is achromatic, Gray) without any
colour format error. -/
theorem colour_classification (decoded : RawImage)
    (isJpeg lossless : Bool) :
    (from_bytes decoded isJpeg lossless = .error .BadImageColourType ↔
      fromImageColourType decoded.color = none)
    ∧ (fromImageColourType decoded.color = none ↔
        ∀ b, decoded.color ≠ .Gray b ∧ decoded.color ≠ .RGB b)
    ∧ (∀ w h bits pix l,
        (from_image ⟨w, h, ColorType.GrayA bits, pix⟩ l).colour_type =
          .Gray)
    ∧ (∀ w h bits pix l,
        (from_image ⟨w, h, ColorType.Palette bits, pix⟩ l).colour_type =
          if image_can_be_grayscale ⟨w, h, ColorType.Palette bits, pix⟩
          then ColourType.Gray else ColourType.RGB)
    ∧ (∀ w h bits pix l,
        (from_image ⟨w, h, ColorType.RGBA bits, pix⟩ l).colour_type =
          if image_can_be_grayscale ⟨w, h, ColorType.RGBA bits, pix⟩
          then ColourType.Gray else ColourType.RGB)
    ∧ (∀ w h bits pix l,
        (from_image ⟨w, h, ColorType.BGR bits, pix⟩ l).colour_type =
          if image_can_be_grayscale ⟨w, h, ColorType.BGR bits, pix⟩
          then ColourType.Gray else ColourType.RGB)
    ∧ (∀ w h bits pix l,
        (from_image ⟨w, h, ColorType.BGRA bits, pix⟩ l).colour_type =
          if image_can_be_grayscale ⟨w, h, ColorType.BGRA bits, pix⟩
          then ColourType.Gray else ColourType.RGB) := by
  refine ⟨?_, ?_, ?_, ?_, ?_, ?_, ?_⟩
  · rcases h : fromImageColourType decoded.color with _ | ct
    · simp [from_bytes, h]
    · cases isJpeg <;> simp [from_bytes, h]
  · constructor
    · intro hnone b
      constructor <;> intro hcol <;> rw [hcol] at hnone <;>
        simp [fromImageColourType] at hnone
    · intro hall
      cases hcol : decoded.color with
      | Gray bits => exact absurd hcol (hall bits).1
      | RGB bits => exact absurd hcol (hall bits).2
      | GrayA bits => rfl
      | RGBA bits => rfl
      | Palette bits => rfl
      | BGR bits => rfl
      | BGRA bits => rfl
  · intro w h bits pix l
    rfl
  · intro w h bits pix l
    have hco : image_can_be_grayscale ⟨w, h, ColorType.RGB 8, pix⟩ =
        image_can_be_grayscale ⟨w, h, ColorType.Palette bits, pix⟩ := rfl
    simp only [from_image, try_to_convert_to_grayscale, to_rgb, hco]
    by_cases hg :
        image_can_be_grayscale ⟨w, h, ColorType.Palette bits, pix⟩ <;>
      simp [hg]
  · intro w h bits pix l
    have hco : image_can_be_grayscale ⟨w, h, ColorType.RGB 8, pix⟩ =
        image_can_be_grayscale ⟨w, h, ColorType.RGBA bits, pix⟩ := rfl
    simp only [from_image, try_to_convert_to_grayscale, to_rgb, hco]
    by_cases hg :
        image_can_be_grayscale ⟨w, h, ColorType.RGBA bits, pix⟩ <;>
      simp [hg]
  · intro w h bits pix l
    have hco : image_can_be_grayscale ⟨w, h, ColorType.RGB 8, pix⟩ =
        image_can_be_grayscale ⟨w, h, ColorType.BGR bits, pix⟩ := rfl
    simp only [from_image, try_to_convert_to_grayscale, to_rgb, hco]
    by_cases hg :
        image_can_be_grayscale ⟨w, h, ColorType.BGR bits, pix⟩ <;>
      simp [hg]
  · intro w h bits pix l
    have hco : image_can_be_grayscale ⟨w, h, ColorType.RGB 8, pix⟩ =
        image_can_be_grayscale ⟨w, h, ColorType.BGRA bits, pix⟩ := rfl
    simp only [from_image, try_to_convert_to_grayscale, to_rgb, hco]
    by_cases hg :
        image_can_be_grayscale ⟨w, h, ColorType.BGRA bits, pix⟩ <;>
      simp [hg]

/-- Concrete instantiation of the amended claim C5: a GrayA input is
rejected by from_bytes even on the JPEG passthrough path. -/
theorem colour_classification_witness :
    from_bytes ⟨4, 4, ColorType.GrayA 8, fun _ _ => ⟨7, 7, 7⟩⟩ true false =
      .error .BadImageColourType :=
  ((colour_classification ⟨4, 4, ColorType.GrayA 8, fun _ _ => ⟨7, 7, 7⟩⟩
    true false).1).mpr rfl

/-- Claim C8: an RGB classified source image is reclassified Gray exactly
when every point of the fixed 20 by 20 sampling grid has its three colour
channels equal, and stays RGB when at least one sampled point differs. -/
theorem rgb_grayscale_reduction (w h bits : Nat)
    (pix : Nat → Nat → Pixel) (lossless : Bool) :
    ((from_image ⟨w, h, ColorType.RGB bits, pix⟩ lossless).colour_type =
        .Gray ↔
      image_can_be_grayscale ⟨w, h, ColorType.RGB bits, pix⟩ = true)
    ∧ (image_can_be_grayscale ⟨w, h, ColorType.RGB bits, pix⟩ = true ↔
        ∀ i, i < 20 → ∀ j, j < 20 →
          (pix (w * i / 20) (h * j / 20)).c1 =
              (pix (w * i / 20) (h * j / 20)).c0
          ∧ (pix (w * i / 20) (h * j / 20)).c2 =
              (pix (w * i / 20) (h * j / 20)).c0)
    ∧ (image_can_be_grayscale ⟨w, h, ColorType.RGB bits, pix⟩ = false →
        (from_image ⟨w, h, ColorType.RGB bits, pix⟩ lossless).colour_type =
          .RGB) := by
  refine ⟨?_, ?_, ?_⟩
  · by_cases hg : image_can_be_grayscale ⟨w, h, ColorType.RGB bits, pix⟩ <;>
      simp [from_image, try_to_convert_to_grayscale, to_luma, hg]
  · simp only [image_can_be_grayscale, List.all_eq_true, List.mem_map,
      List.mem_range, Bool.and_eq_true, decide_eq_true_eq]
    constructor
    · intro hall i hi j hj
      have := hall _ ⟨i, hi, rfl⟩ _ ⟨j, hj, rfl⟩
      exact ⟨this.1, this.2⟩
    · rintro hall x ⟨i, hi, rfl⟩ y ⟨j, hj, rfl⟩
      exact ⟨(hall i hi j hj).1, (hall i hi j hj).2⟩
  · intro hg
    simp [from_image, try_to_convert_to_grayscale, hg]

/-- Concrete instantiation of claim C8: a uniform RGB image is demoted to
Gray. -/
theorem rgb_grayscale_reduction_witness :
    (from_image ⟨2, 2, ColorType.RGB 8, fun _ _ => ⟨5, 5, 5⟩⟩
      false).colour_type = ColourType.Gray :=
  ((rgb_grayscale_reduction 2 2 8 (fun _ _ => ⟨5, 5, 5⟩) false).1).mpr
    (by decide)

end StreamPdf
